import Mathlib

/-!
Verification of `partial_corr.py`: the partial-correlation engine
(`partial_corr`) and the stdin/stdout driver (`main`).

Matrices are embedded as `ℕ → ℕ → ℝ` together with explicit dimension
arguments (numpy arrays are dynamically shaped).  The external call
`scipy.linalg.lstsq` is modelled as an abstract solver parameter
`Solver`: every theorem below holds for an arbitrary solver, so nothing
depends on unstated properties of the least-squares routine.
`scipy.stats.pearsonr` is modelled mathematically; the IEEE NaN that it
produces on a zero-variance input is modelled by `Option.none`, and an
ordinary float value by `Option.some`.  The double loop of
`partial_corr` is embedded as a fold over an explicit state
`(C, P_corr)` whose steps perform the individual cell writes of the
source, so that write-order and frame properties are faithfully
represented.
-/

open Finset

/-- The type of the external least-squares routine `scipy.linalg.lstsq`
(restricted to its use in the source: a list of predictor columns and a
target column give a coefficient list). -/
def Solver : Type := List (ℕ → ℝ) → (ℕ → ℝ) → List ℝ

/-- `C[:, idx].dot(beta)` at row `r`: the linear combination of the
selected columns with the coefficient list. -/
def dotCols (cols : List (ℕ → ℝ)) (beta : List ℝ) (r : ℕ) : ℝ :=
  ((cols.zip beta).map (fun cb => cb.1 r * cb.2)).sum

/-- The mean of the first `n` entries of `x` (numpy `x.mean()`). -/
noncomputable def mean (n : ℕ) (x : ℕ → ℝ) : ℝ :=
  (∑ r ∈ Finset.range n, x r) / n

/-- Sum of squared deviations from the mean (`ss(xm)` in scipy's
`pearsonr`). -/
noncomputable def ssd (n : ℕ) (x : ℕ → ℝ) : ℝ :=
  ∑ r ∈ Finset.range n, (x r - mean n x) ^ 2

/-- The numerator `add.reduce(xm * ym)` of scipy's `pearsonr`. -/
noncomputable def pcov (n : ℕ) (x y : ℕ → ℝ) : ℝ :=
  ∑ r ∈ Finset.range n, (x r - mean n x) * (y r - mean n y)

open Classical in
/-- `scipy.stats.pearsonr(x, y)[0]` on vectors of length `n`:
`r = r_num / sqrt(ss(xm) * ss(ym))`; when the denominator vanishes the
division is `0/0`, which the library propagates as NaN (`none`). -/
noncomputable def pearsonr (n : ℕ) (x y : ℕ → ℝ) : Option ℝ :=
  if ssd n x * ssd n y = 0 then none
  else some (pcov n x y / Real.sqrt (ssd n x * ssd n y))

/-- The controlling columns `C[:, idx]` where `idx` is the boolean mask
over `0..p-1` that is `False` exactly at `i` and `j` (source lines
63-65): all columns of `C` except `i` and `j`, in increasing index
order. -/
def zcols (p : ℕ) (C : ℕ → ℕ → ℝ) (i j : ℕ) : List (ℕ → ℝ) :=
  (((List.range p).filter (fun k => k != i && k != j)).map (fun k => fun r => C r k))

/-- `beta_i = linalg.lstsq(C[:, idx], C[:, j])[0]` (source line 66):
despite the name, these coefficients are fit to predict column `j`. -/
def beta_i (p : ℕ) (solver : Solver) (C : ℕ → ℕ → ℝ) (i j : ℕ) : List ℝ :=
  solver (zcols p C i j) (fun r => C r j)

/-- `beta_j = linalg.lstsq(C[:, idx], C[:, i])[0]` (source line 67):
coefficients fit to predict column `i`. -/
def beta_j (p : ℕ) (solver : Solver) (C : ℕ → ℕ → ℝ) (i j : ℕ) : List ℝ :=
  solver (zcols p C i j) (fun r => C r i)

/-- `res_j = C[:, j] - C[:, idx].dot(beta_i)` (source line 69): the
residual of column `j` against the coefficients fit to predict `j`. -/
def res_j (p : ℕ) (solver : Solver) (C : ℕ → ℕ → ℝ) (i j : ℕ) : ℕ → ℝ :=
  fun r => C r j - dotCols (zcols p C i j) (beta_i p solver C i j) r

/-- `res_i = C[:, i] - C[:, idx].dot(beta_j)` (source line 70): the
residual of column `i` against the coefficients fit to predict `i`. -/
def res_i (p : ℕ) (solver : Solver) (C : ℕ → ℕ → ℝ) (i j : ℕ) : ℕ → ℝ :=
  fun r => C r i - dotCols (zcols p C i j) (beta_j p solver C i j) r

/-- `corr = stats.pearsonr(res_i, res_j)[0]` (source line 72) for the
pair `(i, j)`. -/
noncomputable def pairCorr (n p : ℕ) (solver : Solver) (C : ℕ → ℕ → ℝ) (i j : ℕ) :
    Option ℝ :=
  pearsonr n (res_i p solver C i j) (res_j p solver C i j)

/-- A single cell write `P[a, b] = v` into the output array. -/
def upd2 (P : ℕ → ℕ → Option ℝ) (a b : ℕ) (v : Option ℝ) : ℕ → ℕ → Option ℝ :=
  fun x y => if x = a ∧ y = b then v else P x y

/-- The state threaded through the double loop: the input array `C` and
the output array `P_corr`. -/
def PCState : Type := (ℕ → ℕ → ℝ) × (ℕ → ℕ → Option ℝ)

/-- One iteration of the inner loop (source lines 63-74): compute
`corr` for the pair `(i, j)` and write it at `P[i, j]` and `P[j, i]`. -/
noncomputable def innerStep (n p : ℕ) (solver : Solver) (C : ℕ → ℕ → ℝ) (i : ℕ)
    (P : ℕ → ℕ → Option ℝ) (j : ℕ) : ℕ → ℕ → Option ℝ :=
  upd2 (upd2 P i j (pairCorr n p solver C i j)) j i (pairCorr n p solver C i j)

/-- `range(i+1, p)`, the index list of the inner loop. -/
def innerRange (p i : ℕ) : List ℕ :=
  (List.range p).filter (fun j => decide (i < j))

/-- One iteration of the outer loop (source lines 60-74): first the
diagonal write `P_corr[i, i] = 1`, then the inner loop over
`j in range(i+1, p)`.  The input component of the state is only read,
never written. -/
noncomputable def outerStep (n p : ℕ) (solver : Solver) (st : PCState) (i : ℕ) :
    PCState :=
  (st.1, (innerRange p i).foldl (innerStep n p solver st.1 i) (upd2 st.2 i i (some 1)))

/-- The whole of `partial_corr` as a state transformer: starting from
the caller's array `C` and the fresh array `P_corr = np.zeros((p, p))`,
run the double loop. -/
noncomputable def partial_corr_run (n p : ℕ) (solver : Solver) (C : ℕ → ℕ → ℝ) :
    PCState :=
  (List.range p).foldl (outerStep n p solver) (C, fun _ _ => some 0)

/-- `partial_corr(C)` (source lines 38-76): the returned `P_corr`
array.  `n` and `p` are the dynamic shape of `C`. -/
noncomputable def partial_corr (n p : ℕ) (solver : Solver) (C : ℕ → ℕ → ℝ) :
    ℕ → ℕ → Option ℝ :=
  (partial_corr_run n p solver C).2

/-- Modelled from the spec: the "ordinary Pearson product-moment
correlation coefficient" between two sequences of length `n`,
`Σ (x-x̄)(y-ȳ) / (√Σ (x-x̄)² · √Σ (y-ȳ)²)`, undefined (NaN) when either
factor of the denominator vanishes.  Written independently of the
scipy model `pearsonr`, for the p = 2 reduction claim. -/
noncomputable def pearsonPM (n : ℕ) (x y : ℕ → ℝ) : Option ℝ :=
  if _h : ssd n x = 0 ∨ ssd n y = 0 then none
  else some (pcov n x y / (Real.sqrt (ssd n x) * Real.sqrt (ssd n y)))

/-! ### The stdin/stdout driver `main` (source lines 80-112)

The reading loop consumes lines already split into a label (the first
tab-separated field, `cols.pop(0)`) and the parsed float fields; the
Python-level tab splitting and `float()` parsing are outside the model.
`none` models abnormal termination (an uncaught exception: the
`assert` on line 103 or the `IndexError` from `C.shape[1]`). -/

/-- One iteration of the reading loop (source lines 97-104): record the
label, set `cols_len` from the first row, assert that the current row
has the same number of numeric fields, and append the row. -/
def readStep (st : Option (Option ℕ × List String × List (List ℝ)))
    (row : String × List ℝ) : Option (Option ℕ × List String × List (List ℝ)) :=
  match st with
  | none => none
  | some (clen, ids, mat) =>
    let cl := clen.getD row.2.length
    if cl = row.2.length then some (some cl, ids ++ [row.1], mat ++ [row.2])
    else none

/-- The whole reading loop: `row_ids` and `matrix` after consuming all
of stdin, or `none` if the assertion failed. -/
def readMatrix (rows : List (String × List ℝ)) :
    Option (List String × List (List ℝ)) :=
  (rows.foldl readStep (some (none, [], []))).map (fun st => (st.2.1, st.2.2))

/-- The shape of `np.asarray(matrix)` for a uniform list-of-lists:
the empty list gives the one-dimensional shape `(0,)`, a non-empty one
the two-dimensional shape `(len, len(first))`. -/
def asarrayShape (mat : List (List ℝ)) : List ℕ :=
  match mat with
  | [] => [0]
  | r :: _ => [mat.length, r.length]

/-- The index pairs of the output double loop (source lines 109-111):
for each `i`, every `j > i`, in row order. -/
def pairsList (m : ℕ) : List (ℕ × ℕ) :=
  ((List.range m).map (fun i =>
    ((List.range m).filter (fun j => decide (i < j))).map (fun j => (i, j)))).flatten

/-- `main` after option parsing (source lines 94-112): read the rows,
form `matrix`, transpose it (shape reversal; entry `(r, c)` of the
transpose is entry `c, r` of `matrix`), call `partial_corr` — which
reads `p = C.shape[1]` and fails with `IndexError` (`none`) when the
transposed array has no second axis — and emit one line
`(row_ids[i], row_ids[j], C[i, j])` per `i, j` with `j > i`. -/
noncomputable def mainRun (solver : Solver) (rows : List (String × List ℝ)) :
    Option (List (String × String × Option ℝ)) :=
  (readMatrix rows).bind (fun im =>
    (((asarrayShape im.2).reverse).get? 1).map (fun p =>
      (pairsList im.1.length).map (fun ij =>
        (im.1.getD ij.1 "", im.1.getD ij.2 "",
          partial_corr (im.2.headD []).length p solver
            (fun r c => ((im.2.getD c []).getD r 0)) ij.1 ij.2))))

/-- A fixture solver for concrete witnesses: always returns the empty
coefficient list. -/
def solver0 : Solver := fun _ _ => []

/-- A fixture matrix for concrete witnesses: every column is
`(0, 1, 1, ...)`. -/
def C0 : ℕ → ℕ → ℝ := fun r _ => if r = 0 then 0 else 1

/-- A fixture solver returning an all-ones coefficient vector of the
right length. -/
def solver1 : Solver := fun cols _ => cols.map (fun _ => 1)

/-- A fixture matrix whose column 2 is identical to column 0, so
controlling for it leaves a zero residual on column 0. -/
def Cdeg : ℕ → ℕ → ℝ :=
  fun r c => if c = 1 then (if r = 0 then 5 else 3) else (if r = 0 then 1 else 2)


/-! ### Characterisation of the double loop -/

lemma upd2_eq (P : ℕ → ℕ → Option ℝ) (a b : ℕ) (v : Option ℝ) :
    upd2 P a b v a b = v := by
  simp [upd2]

lemma upd2_ne (P : ℕ → ℕ → Option ℝ) (a b : ℕ) (v : Option ℝ) (x y : ℕ)
    (h : ¬(x = a ∧ y = b)) : upd2 P a b v x y = P x y := by
  simp only [upd2, if_neg h]

lemma mem_innerRange {p i j : ℕ} : j ∈ innerRange p i ↔ j < p ∧ i < j := by
  simp [innerRange, List.mem_filter, List.mem_range]

/-- Cells other than `(i, j)` and `(j, i)` for `j` in the iteration list
are untouched by the inner loop. -/
lemma innerFold_frame (n p : ℕ) (solver : Solver) (C : ℕ → ℕ → ℝ) (i : ℕ)
    (js : List ℕ) : ∀ (P : ℕ → ℕ → Option ℝ) (x y : ℕ),
    ¬(x = i ∧ y ∈ js) → ¬(y = i ∧ x ∈ js) →
    js.foldl (innerStep n p solver C i) P x y = P x y := by
  induction js with
  | nil => intro P x y _ _; rfl
  | cons j rest ih =>
    intro P x y h1 h2
    rw [List.foldl_cons,
      ih _ x y (fun hc => h1 ⟨hc.1, List.mem_cons_of_mem _ hc.2⟩)
        (fun hc => h2 ⟨hc.1, List.mem_cons_of_mem _ hc.2⟩)]
    show upd2 (upd2 P i j _) j i _ x y = P x y
    rw [upd2_ne _ _ _ _ _ _ (by
        rintro ⟨hxj, hyi⟩
        exact h2 ⟨hyi, hxj ▸ List.mem_cons_self j rest⟩),
      upd2_ne _ _ _ _ _ _ (by
        rintro ⟨hxi, hyj⟩
        exact h1 ⟨hxi, hyj ▸ List.mem_cons_self j rest⟩)]

/-- The inner loop writes `pairCorr i y` at cell `(i, y)` for every `y`
in the iteration list (all iteration indices exceed `i`). -/
lemma innerFold_write_ij (n p : ℕ) (solver : Solver) (C : ℕ → ℕ → ℝ) (i : ℕ)
    (js : List ℕ) : ∀ (P : ℕ → ℕ → Option ℝ) (y : ℕ), (∀ j ∈ js, i < j) →
    y ∈ js →
    js.foldl (innerStep n p solver C i) P i y = pairCorr n p solver C i y := by
  induction js with
  | nil => intro P y _ hy; cases hy
  | cons j rest ih =>
    intro P y hjs hy
    rw [List.foldl_cons]
    by_cases hyr : y ∈ rest
    · exact ih _ y (fun k hk => hjs k (List.mem_cons_of_mem _ hk)) hyr
    · have hyj : y = j := ((List.mem_cons.mp hy).resolve_right hyr)
      subst hyj
      have hiy : i < y := hjs y (List.mem_cons_self y rest)
      rw [innerFold_frame n p solver C i rest _ i y
        (fun hc => hyr hc.2) (by rintro ⟨hyi, _⟩; omega)]
      show upd2 (upd2 P i y _) y i _ i y = _
      rw [upd2_ne _ _ _ _ _ _ (by rintro ⟨hiy', _⟩; omega), upd2_eq]

/-- The inner loop writes `pairCorr i x` at cell `(x, i)` for every `x`
in the iteration list. -/
lemma innerFold_write_ji (n p : ℕ) (solver : Solver) (C : ℕ → ℕ → ℝ) (i : ℕ)
    (js : List ℕ) : ∀ (P : ℕ → ℕ → Option ℝ) (x : ℕ), (∀ j ∈ js, i < j) →
    x ∈ js →
    js.foldl (innerStep n p solver C i) P x i = pairCorr n p solver C i x := by
  induction js with
  | nil => intro P x _ hx; cases hx
  | cons j rest ih =>
    intro P x hjs hx
    rw [List.foldl_cons]
    by_cases hxr : x ∈ rest
    · exact ih _ x (fun k hk => hjs k (List.mem_cons_of_mem _ hk)) hxr
    · have hxj : x = j := ((List.mem_cons.mp hx).resolve_right hxr)
      subst hxj
      have hix : i < x := hjs x (List.mem_cons_self x rest)
      rw [innerFold_frame n p solver C i rest _ x i
        (by rintro ⟨hxi, _⟩; omega) (fun hc => hxr hc.2)]
      show upd2 (upd2 P i x _) x i _ x i = _
      rw [upd2_eq]

/-- The outer loop never writes the first (input) component of the
state. -/
lemma outerFold_fst (n p : ℕ) (solver : Solver) (is : List ℕ) (st : PCState) :
    (is.foldl (outerStep n p solver) st).1 = st.1 := by
  induction is generalizing st with
  | nil => rfl
  | cons i rest ih => rw [List.foldl_cons, ih]; rfl

/-- A cell not targeted by any iteration in `is` keeps its value. -/
lemma outerFold_frame (n p : ℕ) (solver : Solver) (is : List ℕ) :
    ∀ (st : PCState) (x y : ℕ),
    (∀ i ∈ is, ¬(x = i ∧ y = i) ∧ ¬(x = i ∧ y ∈ innerRange p i) ∧
      ¬(y = i ∧ x ∈ innerRange p i)) →
    (is.foldl (outerStep n p solver) st).2 x y = st.2 x y := by
  induction is with
  | nil => intro st x y _; rfl
  | cons i rest ih =>
    intro st x y h
    rw [List.foldl_cons, ih _ x y (fun k hk => h k (List.mem_cons_of_mem _ hk))]
    obtain ⟨h1, h2, h3⟩ := h i (List.mem_cons_self i rest)
    show ((innerRange p i).foldl (innerStep n p solver st.1 i)
      (upd2 st.2 i i (some 1))) x y = st.2 x y
    rw [innerFold_frame n p solver st.1 i _ _ x y h2 h3, upd2_ne _ _ _ _ _ _ h1]

/-- Every index processed by the outer loop gets `1` on the diagonal,
and no later iteration disturbs it. -/
lemma outerFold_diag (n p : ℕ) (solver : Solver) (is : List ℕ) :
    ∀ (st : PCState) (x : ℕ), x ∈ is →
    (is.foldl (outerStep n p solver) st).2 x x = some 1 := by
  induction is with
  | nil => intro st x hx; cases hx
  | cons i rest ih =>
    intro st x hx
    rw [List.foldl_cons]
    by_cases hxr : x ∈ rest
    · exact ih _ x hxr
    · have hxi : x = i := ((List.mem_cons.mp hx).resolve_right hxr)
      subst hxi
      rw [outerFold_frame n p solver rest _ x x (fun k hk =>
        ⟨by rintro ⟨hc, -⟩; subst hc; exact hxr hk,
          by rintro ⟨hc, -⟩; subst hc; exact hxr hk,
          by rintro ⟨hc, -⟩; subst hc; exact hxr hk⟩)]
      show ((innerRange p x).foldl (innerStep n p solver st.1 x)
        (upd2 st.2 x x (some 1))) x x = some 1
      rw [innerFold_frame n p solver st.1 x _ _ x x
        (fun hc => absurd (mem_innerRange.mp hc.2).2 (Nat.lt_irrefl x))
        (fun hc => absurd (mem_innerRange.mp hc.2).2 (Nat.lt_irrefl x)), upd2_eq]

/-- An in-range pair `x < y < p` whose smaller index is processed gets
`pairCorr x y` at both `(x, y)` and `(y, x)`, computed against the
input component of the starting state. -/
lemma outerFold_off (n p : ℕ) (solver : Solver) (is : List ℕ) :
    ∀ (st : PCState) (x y : ℕ), x < y → y < p → x ∈ is →
    (is.foldl (outerStep n p solver) st).2 x y = pairCorr n p solver st.1 x y ∧
    (is.foldl (outerStep n p solver) st).2 y x = pairCorr n p solver st.1 x y := by
  induction is with
  | nil => intro st x y _ _ hx; cases hx
  | cons i rest ih =>
    intro st x y hxy hy hx
    rw [List.foldl_cons]
    by_cases hxr : x ∈ rest
    · exact ih _ x y hxy hy hxr
    · have hxi : x = i := ((List.mem_cons.mp hx).resolve_right hxr)
      subst hxi
      have hfr1 : ∀ k ∈ rest, ¬(x = k ∧ y = k) ∧ ¬(x = k ∧ y ∈ innerRange p k) ∧
          ¬(y = k ∧ x ∈ innerRange p k) := by
        intro k hk
        refine ⟨?_, ?_, ?_⟩
        · rintro ⟨hc, -⟩; subst hc; exact hxr hk
        · rintro ⟨hc, -⟩; subst hc; exact hxr hk
        · rintro ⟨hc, hm⟩; subst hc; exact Nat.lt_asymm hxy (mem_innerRange.mp hm).2
      have hfr2 : ∀ k ∈ rest, ¬(y = k ∧ x = k) ∧ ¬(y = k ∧ x ∈ innerRange p k) ∧
          ¬(x = k ∧ y ∈ innerRange p k) := by
        intro k hk
        refine ⟨?_, ?_, ?_⟩
        · rintro ⟨hc, hc'⟩; omega
        · rintro ⟨hc, hm⟩; subst hc; exact Nat.lt_asymm hxy (mem_innerRange.mp hm).2
        · rintro ⟨hc, -⟩; subst hc; exact hxr hk
      have hmem : y ∈ innerRange p x := mem_innerRange.mpr ⟨hy, hxy⟩
      have hjs : ∀ j ∈ innerRange p x, x < j := fun j hj => (mem_innerRange.mp hj).2
      constructor
      · rw [outerFold_frame n p solver rest _ x y hfr1]
        show ((innerRange p x).foldl (innerStep n p solver st.1 x)
          (upd2 st.2 x x (some 1))) x y = _
        exact innerFold_write_ij n p solver st.1 x _ _ y hjs hmem
      · rw [outerFold_frame n p solver rest _ y x hfr2]
        show ((innerRange p x).foldl (innerStep n p solver st.1 x)
          (upd2 st.2 x x (some 1))) y x = _
        exact innerFold_write_ji n p solver st.1 x _ _ y hjs hmem

/-- The diagonal of the returned matrix. -/
lemma partial_corr_diag (n p : ℕ) (solver : Solver) (C : ℕ → ℕ → ℝ) (i : ℕ)
    (h : i < p) : partial_corr n p solver C i i = some 1 :=
  outerFold_diag n p solver (List.range p) _ i (List.mem_range.mpr h)

/-! ### Properties of the Pearson coefficient -/

lemma ssd_nonneg (n : ℕ) (x : ℕ → ℝ) : 0 ≤ ssd n x :=
  Finset.sum_nonneg (fun _ _ => sq_nonneg _)

/-- Cauchy-Schwarz for the Pearson numerator and denominator. -/
lemma pcov_sq_le (n : ℕ) (x y : ℕ → ℝ) : pcov n x y ^ 2 ≤ ssd n x * ssd n y :=
  Finset.sum_mul_sq_le_sq_mul_sq _ _ _

/-- Any defined (non-NaN) value of `pearsonr` lies in `[-1, 1]`. -/
lemma pearsonr_range (n : ℕ) (x y : ℕ → ℝ) (r : ℝ)
    (h : pearsonr n x y = some r) : -1 ≤ r ∧ r ≤ 1 := by
  unfold pearsonr at h
  by_cases hd : ssd n x * ssd n y = 0
  · rw [if_pos hd] at h; cases h
  · rw [if_neg hd] at h
    have hr : r = pcov n x y / Real.sqrt (ssd n x * ssd n y) :=
      (Option.some.inj h).symm
    have hpos : 0 < ssd n x * ssd n y :=
      lt_of_le_of_ne (mul_nonneg (ssd_nonneg n x) (ssd_nonneg n y)) (Ne.symm hd)
    have hsq : 0 < Real.sqrt (ssd n x * ssd n y) := Real.sqrt_pos.mpr hpos
    have habs : |pcov n x y| ≤ Real.sqrt (ssd n x * ssd n y) := by
      rw [← Real.sqrt_sq_eq_abs]
      exact Real.sqrt_le_sqrt (pcov_sq_le n x y)
    have : |r| ≤ 1 := by
      rw [hr, abs_div, abs_of_pos hsq, div_le_one hsq]
      exact habs
    exact abs_le.mp this

/-- The scipy formula (square root of the product) agrees with the
product-of-square-roots formula of the ordinary Pearson coefficient,
including on degenerate inputs. -/
lemma pearsonr_eq_pearsonPM (n : ℕ) (x y : ℕ → ℝ) :
    pearsonr n x y = pearsonPM n x y := by
  unfold pearsonr pearsonPM
  by_cases h : ssd n x * ssd n y = 0
  · rw [if_pos h, dif_pos (mul_eq_zero.mp h)]
  · rw [if_neg h, dif_neg (fun hc => h (by rcases hc with h1 | h1 <;> simp [h1])),
      Real.sqrt_mul (ssd_nonneg n x)]

/-! ### The p = 2 case -/

/-- With two columns the boolean mask excludes both, so the controlling
set is empty. -/
lemma zcols_two (C : ℕ → ℕ → ℝ) : zcols 2 C 0 1 = [] := by
  rfl

lemma dotCols_nil (beta : List ℝ) (r : ℕ) : dotCols [] beta r = 0 :=
  rfl

/-- With an empty controlling set the residual of column `i` is the
column itself. -/
lemma res_i_two (solver : Solver) (C : ℕ → ℕ → ℝ) :
    res_i 2 solver C 0 1 = fun r => C r 0 := by
  funext r
  show C r 0 - dotCols (zcols 2 C 0 1) _ r = C r 0
  rw [zcols_two, dotCols_nil, sub_zero]

/-- With an empty controlling set the residual of column `j` is the
column itself. -/
lemma res_j_two (solver : Solver) (C : ℕ → ℕ → ℝ) :
    res_j 2 solver C 0 1 = fun r => C r 1 := by
  funext r
  show C r 1 - dotCols (zcols 2 C 0 1) _ r = C r 1
  rw [zcols_two, dotCols_nil, sub_zero]

/-- The off-diagonal cells of the returned matrix: both orientations of
an in-range pair hold that pair's `pairCorr`. -/
lemma partial_corr_off (n p : ℕ) (solver : Solver) (C : ℕ → ℕ → ℝ) (i j : ℕ)
    (hij : i < j) (hj : j < p) :
    partial_corr n p solver C i j = pairCorr n p solver C i j ∧
    partial_corr n p solver C j i = pairCorr n p solver C i j :=
  outerFold_off n p solver (List.range p) (C, fun _ _ => some 0) i j hij hj
    (List.mem_range.mpr (Nat.lt_trans hij hj))

/-! ### Characterisation of the reading loop -/

lemma readFold_none (rows : List (String × List ℝ)) :
    rows.foldl readStep none = none := by
  induction rows with
  | nil => rfl
  | cons r rest ih => exact ih

/-- A uniform suffix extends the accumulators by its labels and rows. -/
lemma readFold_uniform (rows : List (String × List ℝ)) :
    ∀ (L : ℕ) (ids : List String) (mat : List (List ℝ)),
    (∀ r ∈ rows, r.2.length = L) →
    rows.foldl readStep (some (some L, ids, mat)) =
      some (some L, ids ++ rows.map Prod.fst, mat ++ rows.map Prod.snd) := by
  induction rows with
  | nil => intro L ids mat _; simp
  | cons r rest ih =>
    intro L ids mat h
    have hr : r.2.length = L := h r (List.mem_cons_self r rest)
    rw [List.foldl_cons]
    show rest.foldl readStep
      (if (some L).getD r.2.length = r.2.length then
        some (some ((some L).getD r.2.length), ids ++ [r.1], mat ++ [r.2])
      else none) = _
    rw [Option.getD_some, if_pos hr.symm,
      ih L _ _ (fun s hs => h s (List.mem_cons_of_mem _ hs))]
    simp

/-- A row whose field count differs from the established one aborts the
whole read. -/
lemma readFold_bad (rows : List (String × List ℝ)) :
    ∀ (L : ℕ) (ids : List String) (mat : List (List ℝ)),
    (∃ r ∈ rows, r.2.length ≠ L) →
    rows.foldl readStep (some (some L, ids, mat)) = none := by
  induction rows with
  | nil => rintro L ids mat ⟨r, hr, -⟩; cases hr
  | cons r rest ih =>
    rintro L ids mat ⟨s, hs, hlen⟩
    rw [List.foldl_cons]
    show rest.foldl readStep
      (if (some L).getD r.2.length = r.2.length then
        some (some ((some L).getD r.2.length), ids ++ [r.1], mat ++ [r.2])
      else none) = none
    rw [Option.getD_some]
    by_cases hr : L = r.2.length
    · rw [if_pos hr]
      have hs' : s ∈ rest := by
        rcases List.mem_cons.mp hs with h | h
        · exact absurd (h ▸ hr.symm) hlen
        · exact h
      exact ih L _ _ ⟨s, hs', hlen⟩
    · rw [if_neg hr]
      exact readFold_none rest

/-- Reading a non-empty uniform input yields the labels and rows in
order. -/
lemma readMatrix_uniform (r0 : String × List ℝ) (rest : List (String × List ℝ))
    (h : ∀ r ∈ r0 :: rest, r.2.length = r0.2.length) :
    readMatrix (r0 :: rest) =
      some ((r0 :: rest).map Prod.fst, (r0 :: rest).map Prod.snd) := by
  unfold readMatrix
  rw [List.foldl_cons]
  show ((rest.foldl readStep
    (if (none : Option ℕ).getD r0.2.length = r0.2.length then
      some (some ((none : Option ℕ).getD r0.2.length), [] ++ [r0.1], [] ++ [r0.2])
    else none)).map (fun st => (st.2.1, st.2.2))) = _
  rw [Option.getD_none, if_pos rfl,
    readFold_uniform rest r0.2.length _ _
      (fun s hs => h s (List.mem_cons_of_mem _ hs))]
  simp

/-- Reading an input with an inconsistent row aborts with no result. -/
lemma readMatrix_bad (r0 : String × List ℝ) (rest : List (String × List ℝ))
    (h : ∃ r ∈ r0 :: rest, r.2.length ≠ r0.2.length) :
    readMatrix (r0 :: rest) = none := by
  unfold readMatrix
  rw [List.foldl_cons]
  show ((rest.foldl readStep
    (if (none : Option ℕ).getD r0.2.length = r0.2.length then
      some (some ((none : Option ℕ).getD r0.2.length), [] ++ [r0.1], [] ++ [r0.2])
    else none)).map (fun st => (st.2.1, st.2.2))) = none
  rw [Option.getD_none, if_pos rfl]
  obtain ⟨s, hs, hlen⟩ := h
  have hs' : s ∈ rest := by
    rcases List.mem_cons.mp hs with h' | h'
    · exact absurd (by rw [h']) hlen
    · exact h'
  rw [readFold_bad rest r0.2.length _ _ ⟨s, hs', hlen⟩]
  rfl

/-- Membership in the output pair list: exactly the pairs `j > i` with
`j` in range. -/
lemma pairsList_mem (m : ℕ) (i j : ℕ) :
    (i, j) ∈ pairsList m ↔ j < m ∧ i < j := by
  unfold pairsList
  rw [List.mem_flatten]
  constructor
  · rintro ⟨l, hl, hmem⟩
    obtain ⟨a, _, rfl⟩ := List.mem_map.mp hl
    obtain ⟨b, hb, hab⟩ := List.mem_map.mp hmem
    obtain ⟨hbr, hlt⟩ := List.mem_filter.mp hb
    cases hab
    exact ⟨List.mem_range.mp hbr, of_decide_eq_true hlt⟩
  · rintro ⟨hj, hij⟩
    refine ⟨((List.range m).filter (fun b => decide (i < b))).map (fun b => (i, b)),
      List.mem_map.mpr ⟨i, List.mem_range.mpr (Nat.lt_trans hij hj), rfl⟩,
      List.mem_map.mpr ⟨j, List.mem_filter.mpr
        ⟨List.mem_range.mpr hj, decide_eq_true hij⟩, rfl⟩⟩

/-- The output pair list has no duplicates: each pair is printed
exactly once. -/
lemma pairsList_nodup (m : ℕ) : (pairsList m).Nodup := by
  unfold pairsList
  rw [List.nodup_flatten]
  constructor
  · intro l hl
    obtain ⟨a, _, rfl⟩ := List.mem_map.mp hl
    exact List.Nodup.map (fun x y hxy => congrArg Prod.snd hxy)
      (List.Nodup.filter _ (List.nodup_range m))
  · rw [List.pairwise_map]
    refine List.Pairwise.imp ?_ (List.nodup_range m)
    intro a b hab x hxa hxb
    obtain ⟨ja, -, rfl⟩ := List.mem_map.mp hxa
    obtain ⟨jb, -, hjb⟩ := List.mem_map.mp hxb
    exact hab (congrArg Prod.fst hjb).symm

/-! ### The claims -/

/-- C1: for every pair of column indices `i < j` of the input matrix
`C`, `partial_corr` forms the controlling set `Z` of all columns except
`i` and `j`, fits a coefficient vector predicting column `j` from
`C[:, Z]` and uses exactly that vector to form
`res_j = C[:, j] - C[:, Z]·beta`, fits a second coefficient vector
predicting column `i` and uses exactly that one to form `res_i`, and
stores the Pearson correlation of `res_i` and `res_j` at `P[i][j]`:
each residual is paired with the coefficients fit to predict that same
column. -/
theorem C1_residual_pairing (n p : ℕ) (solver : Solver) (C : ℕ → ℕ → ℝ)
    (i j : ℕ) (hij : i < j) (hj : j < p) :
    partial_corr n p solver C i j =
      pearsonr n
        (fun r => C r i -
          dotCols (zcols p C i j) (solver (zcols p C i j) (fun r => C r i)) r)
        (fun r => C r j -
          dotCols (zcols p C i j) (solver (zcols p C i j) (fun r => C r j)) r) :=
  (partial_corr_off n p solver C i j hij hj).1

/-- Witness for C1 at a concrete input. -/
theorem C1_residual_pairing_witness :
    (0 : ℕ) < 1 ∧ (1 : ℕ) < 2 ∧
    partial_corr 2 2 solver0 C0 0 1 =
      pearsonr 2
        (fun r => C0 r 0 -
          dotCols (zcols 2 C0 0 1) (solver0 (zcols 2 C0 0 1) (fun r => C0 r 0)) r)
        (fun r => C0 r 1 -
          dotCols (zcols 2 C0 0 1) (solver0 (zcols 2 C0 0 1) (fun r => C0 r 1)) r) :=
  ⟨by decide, by decide,
    C1_residual_pairing 2 2 solver0 C0 0 1 (by decide) (by decide)⟩

/-- C2: for every input matrix `C` with `p` columns, the matrix `P`
returned by `partial_corr` is symmetric: `P[i][j] = P[j][i]` for every
pair of indices `i, j` in `0..p-1`. -/
theorem C2_symmetric (n p : ℕ) (solver : Solver) (C : ℕ → ℕ → ℝ)
    (i j : ℕ) (hi : i < p) (hj : j < p) :
    partial_corr n p solver C i j = partial_corr n p solver C j i := by
  rcases Nat.lt_trichotomy i j with h | h | h
  · rw [(partial_corr_off n p solver C i j h hj).1,
      (partial_corr_off n p solver C i j h hj).2]
  · rw [h]
  · rw [(partial_corr_off n p solver C j i h hi).2,
      (partial_corr_off n p solver C j i h hi).1]

/-- Witness for C2 at a concrete input. -/
theorem C2_symmetric_witness :
    (0 : ℕ) < 2 ∧ (1 : ℕ) < 2 ∧
    partial_corr 2 2 solver0 C0 0 1 = partial_corr 2 2 solver0 C0 1 0 :=
  ⟨by decide, by decide, C2_symmetric 2 2 solver0 C0 0 1 (by decide) (by decide)⟩

/-- C3: the returned matrix has unit diagonal, `P[i][i] = 1` for every
`i < p`, and the value is set before (independently of) the pairwise
inner loop for `i`: that loop never writes the diagonal cell. -/
theorem C3_unit_diagonal (n p : ℕ) (solver : Solver) (C : ℕ → ℕ → ℝ)
    (i : ℕ) (hi : i < p) :
    partial_corr n p solver C i i = some 1 ∧
    ∀ Q : ℕ → ℕ → Option ℝ,
      (innerRange p i).foldl (innerStep n p solver C i) Q i i = Q i i :=
  ⟨partial_corr_diag n p solver C i hi,
    fun Q => innerFold_frame n p solver C i _ Q i i
      (fun hc => absurd (mem_innerRange.mp hc.2).2 (Nat.lt_irrefl i))
      (fun hc => absurd (mem_innerRange.mp hc.2).2 (Nat.lt_irrefl i))⟩

/-- Witness for C3 at a concrete input. -/
theorem C3_unit_diagonal_witness :
    (0 : ℕ) < 2 ∧
    (partial_corr 2 2 solver0 C0 0 0 = some 1 ∧
      ∀ Q : ℕ → ℕ → Option ℝ,
        (innerRange 2 0).foldl (innerStep 2 2 solver0 C0 0) Q 0 0 = Q 0 0) :=
  ⟨by decide, C3_unit_diagonal 2 2 solver0 C0 0 (by decide)⟩

/-- C4: when `C` has exactly 2 columns the controlling set is empty and
the off-diagonal entry `P[0][1]` equals the ordinary Pearson
product-moment correlation coefficient between the two columns. -/
theorem C4_p2_reduction (n : ℕ) (solver : Solver) (C : ℕ → ℕ → ℝ) :
    zcols 2 C 0 1 = [] ∧
    partial_corr n 2 solver C 0 1 =
      pearsonPM n (fun r => C r 0) (fun r => C r 1) := by
  refine ⟨zcols_two C, ?_⟩
  rw [(partial_corr_off n 2 solver C 0 1 (by norm_num) (by norm_num)).1]
  show pearsonr n (res_i 2 solver C 0 1) (res_j 2 solver C 0 1) = _
  rw [res_i_two, res_j_two, pearsonr_eq_pearsonPM]

/-- C8: `partial_corr` never writes into its input matrix: the outer
loop keeps the input component of the state unchanged from any starting
state, so the input array after the call equals its value before, and
the returned matrix is the one grown from the freshly allocated
all-zeros array, not from `C`. -/
theorem C8_no_input_mutation (n p : ℕ) (solver : Solver) (C : ℕ → ℕ → ℝ) :
    (∀ st : PCState, ((List.range p).foldl (outerStep n p solver) st).1 = st.1) ∧
    (partial_corr_run n p solver C).1 = C ∧
    partial_corr_run n p solver C =
      (List.range p).foldl (outerStep n p solver) (C, fun _ _ => some 0) :=
  ⟨fun st => outerFold_fst n p solver (List.range p) st,
    outerFold_fst n p solver (List.range p) _, rfl⟩

/-- C10: on empty stdin the reading loop succeeds with an empty matrix,
`np.asarray` of it is one-dimensional so the transposed shape has no
second axis (`C.shape[1]` is an `IndexError`), and `main` terminates
abnormally with no output lines. -/
theorem C10_empty_stdin (solver : Solver) :
    readMatrix ([] : List (String × List ℝ)) = some ([], []) ∧
    (asarrayShape ([] : List (List ℝ))).reverse = [0] ∧
    ((asarrayShape ([] : List (List ℝ))).reverse).get? 1 = none ∧
    mainRun solver [] = none :=
  ⟨rfl, rfl, rfl, rfl⟩

/-- Evaluation of the scipy Pearson formula on the fixture columns
`(0, 1)` and `(0, 1)`. -/
lemma pearson_C0_eval : pearsonr 2 (fun r => C0 r 0) (fun r => C0 r 1) = some 1 := by
  have hm0 : mean 2 (fun r => C0 r 0) = 1 / 2 := by
    norm_num [mean, C0, Finset.sum_range_succ]
  have hm1 : mean 2 (fun r => C0 r 1) = 1 / 2 := by
    norm_num [mean, C0, Finset.sum_range_succ]
  have hs0 : ssd 2 (fun r => C0 r 0) = 1 / 2 := by
    simp only [ssd]
    rw [hm0]
    norm_num [C0, Finset.sum_range_succ]
  have hs1 : ssd 2 (fun r => C0 r 1) = 1 / 2 := by
    simp only [ssd]
    rw [hm1]
    norm_num [C0, Finset.sum_range_succ]
  have hc : pcov 2 (fun r => C0 r 0) (fun r => C0 r 1) = 1 / 2 := by
    simp only [pcov]
    rw [hm0, hm1]
    norm_num [C0, Finset.sum_range_succ]
  unfold pearsonr
  rw [hs0, hs1, hc, if_neg (by norm_num : ¬((1 : ℝ) / 2 * (1 / 2) = 0)),
    show (1 / 2 : ℝ) * (1 / 2) = (1 / 2) ^ 2 by norm_num,
    Real.sqrt_sq (by norm_num : (0 : ℝ) ≤ 1 / 2)]
  norm_num

/-- The fixture pair `(0, 1)` of `C0` evaluates to a defined coefficient,
namely `1`. -/
lemma partial_corr_C0_eval : partial_corr 2 2 solver0 C0 0 1 = some 1 := by
  rw [(partial_corr_off 2 2 solver0 C0 0 1 (by norm_num) (by norm_num)).1]
  show pearsonr 2 (res_i 2 solver0 C0 0 1) (res_j 2 solver0 C0 0 1) = some 1
  rw [res_i_two, res_j_two]
  exact pearson_C0_eval

/-- C5: for a well-posed pair (the stored value is an ordinary float,
not NaN), every off-diagonal entry of the returned matrix lies in
`[-1, 1]`. -/
theorem C5_offdiag_range (n p : ℕ) (solver : Solver) (C : ℕ → ℕ → ℝ)
    (i j : ℕ) (r : ℝ) (hne : i ≠ j) (hi : i < p) (hj : j < p)
    (hr : partial_corr n p solver C i j = some r) :
    -1 ≤ r ∧ r ≤ 1 := by
  rcases Nat.lt_trichotomy i j with h | h | h
  · have hp : pairCorr n p solver C i j = some r :=
      (partial_corr_off n p solver C i j h hj).1.symm.trans hr
    exact pearsonr_range n (res_i p solver C i j) (res_j p solver C i j) r hp
  · exact absurd h hne
  · have hp : pairCorr n p solver C j i = some r :=
      (partial_corr_off n p solver C j i h hi).2.symm.trans hr
    exact pearsonr_range n (res_i p solver C j i) (res_j p solver C j i) r hp

/-- Witness for C5 at a concrete input. -/
theorem C5_offdiag_range_witness :
    (0 : ℕ) ≠ 1 ∧ (0 : ℕ) < 2 ∧ (1 : ℕ) < 2 ∧
    partial_corr 2 2 solver0 C0 0 1 = some 1 ∧
    (-1 ≤ (1 : ℝ) ∧ (1 : ℝ) ≤ 1) :=
  ⟨by decide, by decide, by decide, partial_corr_C0_eval,
    C5_offdiag_range 2 2 solver0 C0 0 1 1 (by decide) (by decide) (by decide)
      partial_corr_C0_eval⟩

/-- C6: when the residuals of the pair `(i, j)` are degenerate
(zero-variance), the returned matrix holds NaN exactly at `P[i][j]` and
`P[j][i]`, the computation does not abort, the diagonal is still `1`,
and every other well-posed pair still receives a defined coefficient. -/
theorem C6_degenerate_isolation (n p : ℕ) (solver : Solver) (C : ℕ → ℕ → ℝ)
    (i j : ℕ) (hij : i < j) (hj : j < p)
    (hdeg : ssd n (res_i p solver C i j) * ssd n (res_j p solver C i j) = 0) :
    partial_corr n p solver C i j = none ∧
    partial_corr n p solver C j i = none ∧
    (∀ k, k < p → partial_corr n p solver C k k = some 1) ∧
    (∀ k l, k < l → l < p → (k, l) ≠ (i, j) →
      ssd n (res_i p solver C k l) * ssd n (res_j p solver C k l) ≠ 0 →
      ∃ v, partial_corr n p solver C k l = some v ∧
        partial_corr n p solver C l k = some v) := by
  have hpair : pairCorr n p solver C i j = none := by
    show pearsonr n (res_i p solver C i j) (res_j p solver C i j) = none
    unfold pearsonr
    rw [if_pos hdeg]
  refine ⟨?_, ?_, ?_, ?_⟩
  · rw [(partial_corr_off n p solver C i j hij hj).1, hpair]
  · rw [(partial_corr_off n p solver C i j hij hj).2, hpair]
  · exact fun k hk => partial_corr_diag n p solver C k hk
  · intro k l hkl hl _ hnd
    refine ⟨pcov n (res_i p solver C k l) (res_j p solver C k l) /
      Real.sqrt (ssd n (res_i p solver C k l) * ssd n (res_j p solver C k l)),
      ?_, ?_⟩
    · rw [(partial_corr_off n p solver C k l hkl hl).1]
      show pearsonr n (res_i p solver C k l) (res_j p solver C k l) = _
      unfold pearsonr
      rw [if_neg hnd]
    · rw [(partial_corr_off n p solver C k l hkl hl).2]
      show pearsonr n (res_i p solver C k l) (res_j p solver C k l) = _
      unfold pearsonr
      rw [if_neg hnd]

/-- In the fixture `Cdeg`, controlling for column 2 (identical to
column 0) leaves a zero residual on column 0. -/
lemma res_i_Cdeg : res_i 3 solver1 Cdeg 0 1 = fun _ => (0 : ℝ) := by
  funext r
  show Cdeg r 0 - dotCols (zcols 3 Cdeg 0 1) (beta_j 3 solver1 Cdeg 0 1) r = 0
  have hz : zcols 3 Cdeg 0 1 = [fun r => Cdeg r 2] := rfl
  have hb : beta_j 3 solver1 Cdeg 0 1 = [1] := rfl
  rw [hz, hb]
  simp [dotCols, Cdeg]

/-- The degeneracy hypothesis holds on the fixture. -/
lemma Cdeg_hdeg :
    ssd 2 (res_i 3 solver1 Cdeg 0 1) * ssd 2 (res_j 3 solver1 Cdeg 0 1) = 0 := by
  rw [res_i_Cdeg]
  have h0 : ssd 2 (fun _ => (0 : ℝ)) = 0 := by
    simp [ssd, mean]
  rw [h0, zero_mul]

/-- Witness for C6 at a concrete input. -/
theorem C6_degenerate_isolation_witness :
    (0 : ℕ) < 1 ∧ (1 : ℕ) < 3 ∧
    ssd 2 (res_i 3 solver1 Cdeg 0 1) * ssd 2 (res_j 3 solver1 Cdeg 0 1) = 0 ∧
    (partial_corr 2 3 solver1 Cdeg 0 1 = none ∧
      partial_corr 2 3 solver1 Cdeg 1 0 = none ∧
      (∀ k, k < 3 → partial_corr 2 3 solver1 Cdeg k k = some 1) ∧
      (∀ k l, k < l → l < 3 → (k, l) ≠ (0, 1) →
        ssd 2 (res_i 3 solver1 Cdeg k l) * ssd 2 (res_j 3 solver1 Cdeg k l) ≠ 0 →
        ∃ v, partial_corr 2 3 solver1 Cdeg k l = some v ∧
          partial_corr 2 3 solver1 Cdeg l k = some v)) :=
  ⟨by decide, by decide, Cdeg_hdeg,
    C6_degenerate_isolation 2 3 solver1 Cdeg 0 1 (by decide) (by decide) Cdeg_hdeg⟩

/-- C7: if some input row has a number of numeric fields different from
the first row's, the reading loop fails (the assertion on line 103),
the whole input is rejected before any computation, and no output line
is emitted. -/
theorem C7_inconsistent_rows (solver : Solver) (r0 : String × List ℝ)
    (rest : List (String × List ℝ))
    (h : ∃ r ∈ r0 :: rest, r.2.length ≠ r0.2.length) :
    readMatrix (r0 :: rest) = none ∧ mainRun solver (r0 :: rest) = none := by
  have hrm := readMatrix_bad r0 rest h
  refine ⟨hrm, ?_⟩
  unfold mainRun
  rw [hrm]
  rfl

/-- Witness for C7 at a concrete input. -/
theorem C7_inconsistent_rows_witness :
    (∃ r ∈ [("A", [(1 : ℝ), 2]), ("B", [(1 : ℝ)])],
      r.2.length ≠ ("A", [(1 : ℝ), 2]).2.length) ∧
    (readMatrix [("A", [(1 : ℝ), 2]), ("B", [(1 : ℝ)])] = none ∧
      mainRun solver0 [("A", [(1 : ℝ), 2]), ("B", [(1 : ℝ)])] = none) := by
  have h : ∃ r ∈ [("A", [(1 : ℝ), 2]), ("B", [(1 : ℝ)])],
      r.2.length ≠ ("A", [(1 : ℝ), 2]).2.length :=
    ⟨("B", [(1 : ℝ)]), by simp, by simp⟩
  exact ⟨h, C7_inconsistent_rows solver0 ("A", [(1 : ℝ), 2]) [("B", [(1 : ℝ)])] h⟩

/-- C9: on a well-formed input of `m` rows, `main` emits exactly one
line per unordered pair `j > i`, namely `(l_i, l_j, P[i][j])`, the
diagonal and lower triangle omitted, where `P` is `partial_corr` of the
transposed matrix (input row `c` becomes column `c`: entry `(r, c)` of
the observation matrix is field `r` of input row `c`). -/
theorem C9_output_lines (solver : Solver) (r0 : String × List ℝ)
    (rest : List (String × List ℝ))
    (h : ∀ r ∈ r0 :: rest, r.2.length = r0.2.length) :
    mainRun solver (r0 :: rest) =
      some ((pairsList (r0 :: rest).length).map (fun ij =>
        (((r0 :: rest).map Prod.fst).getD ij.1 "",
         ((r0 :: rest).map Prod.fst).getD ij.2 "",
         partial_corr r0.2.length (r0 :: rest).length solver
           (fun r c => (((r0 :: rest).map Prod.snd).getD c []).getD r 0)
           ij.1 ij.2))) ∧
    (∀ i j : ℕ, (i, j) ∈ pairsList (r0 :: rest).length ↔
      j < (r0 :: rest).length ∧ i < j) ∧
    (pairsList (r0 :: rest).length).Nodup := by
  refine ⟨?_, fun i j => pairsList_mem _ i j, pairsList_nodup _⟩
  unfold mainRun
  rw [readMatrix_uniform r0 rest h]
  show some ((pairsList ((r0 :: rest).map Prod.fst).length).map (fun ij =>
      (((r0 :: rest).map Prod.fst).getD ij.1 "",
       ((r0 :: rest).map Prod.fst).getD ij.2 "",
       partial_corr r0.2.length ((r0 :: rest).map Prod.snd).length solver
         (fun r c => (((r0 :: rest).map Prod.snd).getD c []).getD r 0)
         ij.1 ij.2))) = _
  simp only [List.length_map]

/-- Witness for C9 at a concrete input. -/
theorem C9_output_lines_witness :
    (∀ r ∈ [("A", [(1 : ℝ)]), ("B", [(2 : ℝ)])],
      r.2.length = ("A", [(1 : ℝ)]).2.length) ∧
    mainRun solver0 [("A", [(1 : ℝ)]), ("B", [(2 : ℝ)])] =
      some ((pairsList ([("A", [(1 : ℝ)]), ("B", [(2 : ℝ)])] : List (String × List ℝ)).length).map (fun ij =>
        ((([("A", [(1 : ℝ)]), ("B", [(2 : ℝ)])] : List (String × List ℝ)).map Prod.fst).getD ij.1 "",
         (([("A", [(1 : ℝ)]), ("B", [(2 : ℝ)])] : List (String × List ℝ)).map Prod.fst).getD ij.2 "",
         partial_corr ("A", [(1 : ℝ)]).2.length
           ([("A", [(1 : ℝ)]), ("B", [(2 : ℝ)])] : List (String × List ℝ)).length solver0
           (fun r c => ((([("A", [(1 : ℝ)]), ("B", [(2 : ℝ)])] : List (String × List ℝ)).map Prod.snd).getD c []).getD r 0)
           ij.1 ij.2))) := by
  have h : ∀ r ∈ [("A", [(1 : ℝ)]), ("B", [(2 : ℝ)])],
      r.2.length = ("A", [(1 : ℝ)]).2.length := by
    intro r hr
    rcases List.mem_cons.mp hr with rfl | hr2
    · rfl
    · rcases List.mem_cons.mp hr2 with rfl | h3
      · rfl
      · cases h3
  exact ⟨h, (C9_output_lines solver0 ("A", [(1 : ℝ)]) [("B", [(2 : ℝ)])] h).1⟩
